import Mathlib

/-!
Shallow embedding of the Huffman coding core of FileZipper
(src/filezipper/core.py).  Bytes are modelled as natural numbers,
bit-strings as lists of booleans (false for the character 0 and true for
the character 1), Python dictionaries as association lists, and Python
exceptions as Option (none means the call raised).  The heap functions
mirror CPython heapq, which the source uses, with comparison given by
HuffmanNode.__lt__ (strict comparison of frequencies).
-/

/-- Model of the HuffmanNode class: char is None exactly on internal
nodes, and _merge_nodes always supplies both children of an internal
node. -/
inductive HuffmanNode where
  | leaf (char : Nat) (freq : Nat)
  | internal (freq : Nat) (left : HuffmanNode) (right : HuffmanNode)
deriving DecidableEq

instance : Inhabited HuffmanNode := ⟨.leaf 0 0⟩

/-- Frequency field of a node. -/
def HuffmanNode.freq : HuffmanNode → Nat
  | .leaf _ f => f
  | .internal f _ _ => f

/-- Symbols at the leaves of a node, in left-to-right order. -/
def HuffmanNode.symbols : HuffmanNode → List Nat
  | .leaf c _ => [c]
  | .internal _ l r => l.symbols ++ r.symbols

/-- Loop of heapq._siftdown, with an explicit iteration bound: the
position strictly decreases at every step, so a bound of at least the
starting position computes the while loop of the source; an exhausted
bound places newitem exactly like the loop exit does. -/
def siftdownLoop : Nat → HuffmanNode → Nat → List HuffmanNode → Nat → List HuffmanNode
  | 0, newitem, _, heap, pos => heap.set pos newitem
  | fuel + 1, newitem, startpos, heap, pos =>
    if startpos < pos then
      if newitem.freq < (heap.getD ((pos - 1) / 2) default).freq then
        siftdownLoop fuel newitem startpos
          (heap.set pos (heap.getD ((pos - 1) / 2) default)) ((pos - 1) / 2)
      else heap.set pos newitem
    else heap.set pos newitem

/-- heapq._siftdown: newitem was read at heap[pos] before the loop;
parents strictly greater than newitem move down and newitem is written
at the final position. -/
def siftdown (newitem : HuffmanNode) (startpos : Nat) (heap : List HuffmanNode) (pos : Nat) :
    List HuffmanNode :=
  siftdownLoop pos newitem startpos heap pos

/-- Child selection inside heapq._siftup: move to the right child when it
is in range and not greater than the left child. -/
def pickChild (heap : List HuffmanNode) (endpos pos : Nat) : Nat :=
  if 2 * pos + 2 < endpos ∧
      ¬ (heap.getD (2 * pos + 1) default).freq < (heap.getD (2 * pos + 2) default).freq then
    2 * pos + 2
  else 2 * pos + 1

/-- Loop of heapq._siftup, with an explicit iteration bound: the
position strictly increases below endpos at every step, so a bound of at
least endpos computes the while loop of the source; an exhausted bound
finishes exactly like the loop exit does. -/
def siftupLoop : Nat → HuffmanNode → Nat → Nat → List HuffmanNode → Nat → List HuffmanNode
  | 0, newitem, _, startpos, heap, pos =>
    siftdown newitem startpos (heap.set pos newitem) pos
  | fuel + 1, newitem, endpos, startpos, heap, pos =>
    if 2 * pos + 1 < endpos then
      siftupLoop fuel newitem endpos startpos
        (heap.set pos (heap.getD (pickChild heap endpos pos) default))
        (pickChild heap endpos pos)
    else siftdown newitem startpos (heap.set pos newitem) pos

/-- heapq._siftup(heap, pos): newitem is heap[pos]; the smaller child
moves up until a childless position is reached, newitem lands there and
_siftdown restores the invariant. -/
def siftup (heap : List HuffmanNode) (pos : Nat) : List HuffmanNode :=
  siftupLoop heap.length (heap.getD pos default) heap.length pos heap pos

/-- heapq.heappush: append the item and sift it towards the root. -/
def heappush (heap : List HuffmanNode) (item : HuffmanNode) : List HuffmanNode :=
  siftdown item 0 (heap ++ [item]) heap.length

/-- heapq.heappop: none models the IndexError raised on an empty heap.
On a heap of two or more items the last item replaces the root and is
sifted down. -/
def heappop : List HuffmanNode → Option (HuffmanNode × List HuffmanNode)
  | [] => none
  | [x] => some (x, [])
  | x :: y :: ys =>
    some (x, siftup ((y :: ys).getLast (List.cons_ne_nil y ys) :: (y :: ys).dropLast) 0)

/-- Loop of HuffmanEncoder._merge_nodes: pop the two least nodes and
push an internal node combining them, while more than one node remains.
The loop is written with an explicit iteration bound; every iteration
shrinks the heap by one node (heappop removes one node and heappush adds
one, proved below), so any bound of at least the heap length computes
the while loop of the source.  The unreachable none branches keep the
definition total. -/
def mergeNodesLoop : Nat → List HuffmanNode → List HuffmanNode
  | 0, heap => heap
  | fuel + 1, heap =>
    if 1 < heap.length then
      match heappop heap with
      | none => heap
      | some (node1, rest1) =>
        match heappop rest1 with
        | none => rest1
        | some (node2, rest2) =>
          mergeNodesLoop fuel (heappush rest2 (.internal (node1.freq + node2.freq) node1 node2))
    else heap

/-- HuffmanEncoder._merge_nodes. -/
def mergeNodes (heap : List HuffmanNode) : List HuffmanNode :=
  mergeNodesLoop heap.length heap

/-- HuffmanEncoder._build_frequency_dict step: Counter counts with keys
in first-occurrence order. -/
def bumpFreq (acc : List (Nat × Nat)) (b : Nat) : List (Nat × Nat) :=
  if acc.any (fun p => p.1 == b) then
    acc.map (fun p => if p.1 == b then (p.1, p.2 + 1) else p)
  else acc ++ [(b, 1)]

/-- HuffmanEncoder._build_frequency_dict, as collections.Counter. -/
def buildFrequencyDict (data : List Nat) : List (Nat × Nat) :=
  data.foldl bumpFreq []

/-- HuffmanEncoder._build_min_heap: push one leaf per table entry, in
table order. -/
def buildMinHeap (frequency : List (Nat × Nat)) : List HuffmanNode :=
  frequency.foldl (fun h p => heappush h (.leaf p.1 p.2)) []

/-- HuffmanEncoder._build_codes_helper: depth-first code assignment; a
leaf reached with the empty code (single-node tree) receives the single
bit 0. -/
def buildCodesHelper : HuffmanNode → List Bool → List (Nat × List Bool)
  | .leaf c _, currentCode => [(c, if currentCode = [] then [false] else currentCode)]
  | .internal _ l r, currentCode =>
    buildCodesHelper l (currentCode ++ [false]) ++ buildCodesHelper r (currentCode ++ [true])

/-- HuffmanEncoder._build_codes: empty heap yields no codes; a leaf root
receives the code 0 directly; otherwise the helper walks the tree. -/
def buildCodes (heap : List HuffmanNode) : List (Nat × List Bool) :=
  match heap with
  | [] => []
  | root :: _ =>
    match root with
    | .leaf c _ => [(c, [false])]
    | .internal f l r => buildCodesHelper (.internal f l r) []

/-- Code table produced for a frequency table: min-heap construction,
merging, then code assignment, as run inside HuffmanEncoder.compress. -/
def huffmanCodes (frequency : List (Nat × Nat)) : List (Nat × List Bool) :=
  buildCodes (mergeNodes (buildMinHeap frequency))

/-- HuffmanEncoder._get_encoded_data: concatenate the code of every data
byte; none models the KeyError on a byte without a code. -/
def getEncodedData (codes : List (Nat × List Bool)) : List Nat → Option (List Bool)
  | [] => some []
  | b :: rest =>
    match List.lookup b codes, getEncodedData codes rest with
    | some c, some e => some (c ++ e)
    | _, _ => none

/-- HuffmanEncoder._pad_encoded_data: padding is 8 - len % 8, and zero
bits are appended only when that value differs from 8. -/
def padEncodedData (encodedData : List Bool) : List Bool × Nat :=
  if 8 - encodedData.length % 8 ≠ 8 then
    (encodedData ++ List.replicate (8 - encodedData.length % 8) false,
      8 - encodedData.length % 8)
  else (encodedData, 8 - encodedData.length % 8)

/-- Value of a big-endian bit-string, as int(s, 2). -/
def bitsToNat (bits : List Bool) : Nat :=
  bits.foldl (fun acc b => 2 * acc + (if b then 1 else 0)) 0

/-- Loop of HuffmanEncoder._get_byte_array, with an explicit iteration
bound: every step drops eight bits of a non-empty list, so a bound of at
least the bit count computes the for loop of the source. -/
def bitsToBytesLoop : Nat → List Bool → List Nat
  | 0, _ => []
  | fuel + 1, bits =>
    if bits = [] then []
    else bitsToNat (bits.take 8) :: bitsToBytesLoop fuel (bits.drop 8)

/-- Split a bit-string into consecutive 8-bit groups and convert each
group to a byte value, as the loop of HuffmanEncoder._get_byte_array. -/
def bitsToBytes (bits : List Bool) : List Nat :=
  bitsToBytesLoop bits.length bits

/-- HuffmanEncoder._get_byte_array: none models the ValueError on input
whose length is not a multiple of 8. -/
def getByteArray (paddedEncodedData : List Bool) : Option (List Nat) :=
  if paddedEncodedData.length % 8 ≠ 0 then none
  else some (bitsToBytes paddedEncodedData)

/-- HuffmanEncoder.compress: empty input short-circuits; otherwise build
the code table, encode, pad, pack, and prepend the padding byte. -/
def compress (data : List Nat) : Option (List Nat × List (Nat × List Bool)) :=
  if data = [] then some ([], [])
  else
    match getEncodedData (huffmanCodes (buildFrequencyDict data)) data with
    | none => none
    | some encodedData =>
      match getByteArray (padEncodedData encodedData).1 with
      | none => none
      | some compressedData =>
        some ((padEncodedData encodedData).2 :: compressedData,
          huffmanCodes (buildFrequencyDict data))

/-- Big-endian bits of a byte value, as the format string 08b renders a
value below 256. -/
def natToBits : Nat → Nat → List Bool
  | 0, _ => []
  | w + 1, n => natToBits w (n / 2) ++ [n % 2 == 1]

/-- HuffmanDecoder._remove_padding: Python slicing s[:-p] clamps at the
empty string when p is at least the length. -/
def removePadding (paddedEncodedData : List Bool) (padding : Nat) : List Bool :=
  if 0 < padding then paddedEncodedData.take (paddedEncodedData.length - padding)
  else paddedEncodedData

/-- Loop of HuffmanDecoder._decode_data: grow a candidate code bit by
bit, emitting a byte and resetting whenever the candidate is a key of
the reverse mapping.  Returns the final candidate and the decoded
bytes. -/
def decodeLoop (rev : List (List Bool × Nat)) :
    List Bool → List Bool → List Nat → List Bool × List Nat
  | [], currentCode, decoded => (currentCode, decoded)
  | bit :: rest, currentCode, decoded =>
    match List.lookup (currentCode ++ [bit]) rev with
    | some byte => decodeLoop rev rest [] (decoded ++ [byte])
    | none => decodeLoop rev rest (currentCode ++ [bit]) decoded

/-- HuffmanDecoder._decode_data: none models the ValueError raised when
the loop finishes with a non-empty candidate. -/
def decodeData (rev : List (List Bool × Nat)) (encodedData : List Bool) : Option (List Nat) :=
  match decodeLoop rev encodedData [] [] with
  | ([], decoded) => some decoded
  | _ => none

/-- HuffmanDecoder.decompress: empty input short-circuits; otherwise
render every byte on 8 bits, read the padding count from the first 8
bits, strip the padding and decode with the inverted code table. -/
def decompress (compressedData : List Nat) (codes : List (Nat × List Bool)) :
    Option (List Nat) :=
  if compressedData = [] then some []
  else
    decodeData (codes.map fun p => (p.2, p.1))
      (removePadding ((compressedData.flatMap (natToBits 8)).drop 8)
        (bitsToNat ((compressedData.flatMap (natToBits 8)).take 8)))

/-- Corruption experiment of the spec, stated at the bit level: drop the
last k bits of the packed body bit-string of a compressed result, then
run the decode pipeline (padding removal, then the code walk) with the
reverse mapping of the original code table. -/
def truncatedDecode (compressedData : List Nat) (codes : List (Nat × List Bool))
    (k : Nat) : Option (List Nat) :=
  match compressedData with
  | [] => some []
  | padding :: body =>
    decodeData (codes.map fun p => (p.2, p.1))
      (removePadding
        ((body.flatMap (natToBits 8)).take ((body.flatMap (natToBits 8)).length - k))
        padding)

/-- Leaf symbols across a heap, in heap order. -/
def heapSymbols (heap : List HuffmanNode) : List Nat :=
  heap.flatMap HuffmanNode.symbols

/-- Input of the compression-ratio test of the spec: 1000 bytes a, 500
bytes b, 250 bytes c, 125 bytes d. -/
def skewedInput : List Nat :=
  List.replicate 1000 97 ++ List.replicate 500 98 ++
    List.replicate 250 99 ++ List.replicate 125 100

theorem set_getD_self {α : Type _} (d : α) :
    ∀ (l : List α) (n : Nat), n < l.length → l.set n (l.getD n d) = l := by
  intro l
  induction l with
  | nil => intro n h; simp at h
  | cons a t ih =>
    intro n h
    cases n with
    | zero => rfl
    | succ m =>
      simp only [List.getD_cons_succ, List.set_cons_succ, List.cons.injEq, true_and]
      exact ih m (by simpa using h)

theorem cons_set_perm {α : Type _} :
    ∀ (t : List α) (n : Nat) (a x : α), n < t.length →
      List.Perm (x :: t.set n a) (a :: t.set n x) := by
  intro t
  induction t with
  | nil => intro n a x h; simp at h
  | cons b t ih =>
    intro n a x h
    cases n with
    | zero => exact List.Perm.swap a x t
    | succ m =>
      simp only [List.set_cons_succ]
      exact ((List.Perm.swap b x _).trans ((ih m a x (by simpa using h)).cons b)).trans
        (List.Perm.swap a b _)

theorem set_set_perm {α : Type _} (d : α) :
    ∀ (l : List α) (i j : Nat), i ≠ j → i < l.length → j < l.length → ∀ x : α,
      List.Perm ((l.set i (l.getD j d)).set j x) (l.set i x) := by
  intro l
  induction l with
  | nil => intro i j _ hi _ _; simp at hi
  | cons a t ih =>
    intro i j hij hi hj x
    cases i with
    | zero =>
      cases j with
      | zero => exact absurd rfl hij
      | succ m =>
        simp only [List.getD_cons_succ, List.set_cons_zero, List.set_cons_succ]
        have hm : m < t.length := by simpa using hj
        have h1 := (cons_set_perm t m (t.getD m d) x hm).symm
        rw [set_getD_self d t m hm] at h1
        exact h1
    | succ n =>
      cases j with
      | zero =>
        simp only [List.getD_cons_zero, List.set_cons_succ, List.set_cons_zero]
        exact cons_set_perm t n a x (by simpa using hi)
      | succ m =>
        simp only [List.getD_cons_succ, List.set_cons_succ]
        exact (ih n m (by omega) (by simpa using hi) (by simpa using hj) x).cons a

theorem siftdownLoop_perm (newitem : HuffmanNode) (startpos : Nat) :
    ∀ (fuel pos : Nat) (heap : List HuffmanNode), pos < heap.length →
      List.Perm (siftdownLoop fuel newitem startpos heap pos) (heap.set pos newitem) := by
  intro fuel
  induction fuel with
  | zero => intro pos heap _; exact List.Perm.refl _
  | succ fuel ih =>
    intro pos heap hlen
    rw [siftdownLoop]
    split
    · rename_i hsp
      split
      · have hpp : (pos - 1) / 2 < pos :=
          Nat.lt_of_le_of_lt (Nat.div_le_self _ _) (by omega)
        have h1 : (pos - 1) / 2 < (heap.set pos (heap.getD ((pos - 1) / 2) default)).length := by
          simp only [List.length_set]; omega
        refine (ih _ _ h1).trans ?_
        exact set_set_perm default heap pos ((pos - 1) / 2) (by omega) hlen (by omega) newitem
      · exact List.Perm.refl _
    · exact List.Perm.refl _

theorem siftdown_perm (newitem : HuffmanNode) (startpos : Nat)
    (pos : Nat) (heap : List HuffmanNode) (hlen : pos < heap.length) :
    List.Perm (siftdown newitem startpos heap pos) (heap.set pos newitem) :=
  siftdownLoop_perm newitem startpos pos pos heap hlen

theorem siftupLoop_perm (newitem : HuffmanNode) (endpos startpos : Nat) :
    ∀ (fuel pos : Nat) (heap : List HuffmanNode), pos < heap.length →
      endpos ≤ heap.length →
      List.Perm (siftupLoop fuel newitem endpos startpos heap pos) (heap.set pos newitem) := by
  intro fuel
  induction fuel with
  | zero =>
    intro pos heap hpos hend
    refine (siftdown_perm newitem startpos pos _ (by simpa using hpos)).trans ?_
    rw [List.set_set]
  | succ fuel ih =>
    intro pos heap hpos hend
    rw [siftupLoop]
    split
    · rename_i hchild
      have hp : pos < pickChild heap endpos pos := by unfold pickChild; split <;> omega
      have he : pickChild heap endpos pos < endpos := by unfold pickChild; split <;> omega
      have h1 : pickChild heap endpos pos <
          (heap.set pos (heap.getD (pickChild heap endpos pos) default)).length := by
        simp only [List.length_set]; omega
      refine (ih _ _ h1 (by simpa using hend)).trans ?_
      exact set_set_perm default heap pos (pickChild heap endpos pos) (by omega) hpos
        (by omega) newitem
    · refine (siftdown_perm newitem startpos pos _ (by simpa using hpos)).trans ?_
      rw [List.set_set]

theorem heappush_perm (heap : List HuffmanNode) (item : HuffmanNode) :
    List.Perm (heappush heap item) (item :: heap) := by
  unfold heappush
  have h1 : heap.length < (heap ++ [item]).length := by simp
  have h2 := siftdown_perm item 0 heap.length (heap ++ [item]) h1
  have hg : (heap ++ [item]).getD heap.length default = item := by
    simp [List.getD_eq_getElem?_getD, List.getElem?_concat_length]
  have h3 := set_getD_self default (heap ++ [item]) heap.length (by simp)
  rw [hg] at h3
  rw [h3] at h2
  exact h2.trans (List.perm_append_singleton _ _)

theorem heappush_length (heap : List HuffmanNode) (item : HuffmanNode) :
    (heappush heap item).length = heap.length + 1 := by
  simpa using (heappush_perm heap item).length_eq

theorem heappop_perm {heap : List HuffmanNode} {x : HuffmanNode} {rest : List HuffmanNode}
    (h : heappop heap = some (x, rest)) : List.Perm (x :: rest) heap := by
  match heap with
  | [] => simp [heappop] at h
  | [a] =>
    simp only [heappop, Option.some.injEq, Prod.mk.injEq] at h
    obtain ⟨rfl, rfl⟩ := h
    exact List.Perm.refl _
  | a :: b :: bs =>
    simp only [heappop, Option.some.injEq, Prod.mk.injEq] at h
    obtain ⟨rfl, rfl⟩ := h
    refine List.Perm.cons _ ?_
    unfold siftup
    set L := (b :: bs).getLast (List.cons_ne_nil b bs) :: (b :: bs).dropLast with hL
    have hlen : 0 < L.length := by simp [hL]
    have h2 := siftupLoop_perm (L.getD 0 default) L.length 0 L.length 0 L hlen
      (Nat.le_refl _)
    have h3 : L.set 0 (L.getD 0 default) = L := set_getD_self default L 0 hlen
    rw [h3] at h2
    refine h2.trans ?_
    rw [hL]
    refine (List.perm_append_singleton _ _).symm.trans ?_
    rw [List.dropLast_concat_getLast (List.cons_ne_nil b bs)]

theorem heappop_length {heap : List HuffmanNode} {x : HuffmanNode} {rest : List HuffmanNode}
    (h : heappop heap = some (x, rest)) : rest.length + 1 = heap.length := by
  simpa using (heappop_perm h).length_eq

theorem heappop_isSome {heap : List HuffmanNode} (h : heap ≠ []) :
    ∃ x rest, heappop heap = some (x, rest) := by
  match heap with
  | [] => exact absurd rfl h
  | [a] => exact ⟨a, [], rfl⟩
  | a :: b :: bs => exact ⟨_, _, rfl⟩

theorem heapSymbols_perm {h1 h2 : List HuffmanNode} (h : List.Perm h1 h2) :
    List.Perm (heapSymbols h1) (heapSymbols h2) :=
  List.Perm.flatMap_right HuffmanNode.symbols h

theorem mergeNodesLoop_spec :
    ∀ (fuel : Nat) (heap : List HuffmanNode), heap.length ≤ fuel → heap ≠ [] →
      ∃ root, mergeNodesLoop fuel heap = [root] ∧
        List.Perm root.symbols (heapSymbols heap) := by
  intro fuel
  induction fuel with
  | zero =>
    intro heap hle hne
    exact absurd (List.length_eq_zero.mp (Nat.le_zero.mp hle)) hne
  | succ fuel ih =>
    intro heap hle hne
    rw [mergeNodesLoop]
    split
    · rename_i h1
      obtain ⟨n1, r1, e1⟩ := heappop_isSome hne
      have hl1 := heappop_length e1
      have hr1 : r1 ≠ [] := by
        intro hnil
        rw [hnil] at hl1
        simp at hl1
        omega
      obtain ⟨n2, r2, e2⟩ := heappop_isSome hr1
      have hl2 := heappop_length e2
      simp only [e1, e2]
      have hlen : (heappush r2 (.internal (n1.freq + n2.freq) n1 n2)).length ≤ fuel := by
        rw [heappush_length]; omega
      have hne2 : heappush r2 (.internal (n1.freq + n2.freq) n1 n2) ≠ [] := by
        apply List.length_pos.mp
        rw [heappush_length]
        omega
      obtain ⟨root, hroot, hperm⟩ := ih _ hlen hne2
      refine ⟨root, hroot, hperm.trans ?_⟩
      have p1 : List.Perm (heapSymbols (heappush r2 (.internal (n1.freq + n2.freq) n1 n2)))
          ((n1.symbols ++ n2.symbols) ++ heapSymbols r2) := by
        refine (heapSymbols_perm (heappush_perm _ _)).trans ?_
        simp [heapSymbols, HuffmanNode.symbols]
      have p2 : List.Perm (heapSymbols heap) (n1.symbols ++ heapSymbols r1) := by
        refine (heapSymbols_perm (heappop_perm e1).symm).trans ?_
        simp [heapSymbols]
      have p3 : List.Perm (heapSymbols r1) (n2.symbols ++ heapSymbols r2) := by
        refine (heapSymbols_perm (heappop_perm e2).symm).trans ?_
        simp [heapSymbols]
      refine p1.trans ?_
      rw [List.append_assoc]
      exact ((p3.symm.append_left n1.symbols).trans p2.symm)
    · rename_i h1
      match heap with
      | [root] => exact ⟨root, rfl, by simp [heapSymbols]⟩
      | [] => exact absurd rfl hne
      | a :: b :: t => exact absurd (by simp) h1

theorem mergeNodes_spec (heap : List HuffmanNode) (hne : heap ≠ []) :
    ∃ root, mergeNodes heap = [root] ∧ List.Perm root.symbols (heapSymbols heap) :=
  mergeNodesLoop_spec heap.length heap (Nat.le_refl _) hne

theorem buildMinHeap_symbols (frequency : List (Nat × Nat)) :
    List.Perm (heapSymbols (buildMinHeap frequency)) (frequency.map Prod.fst) := by
  suffices h : ∀ (freq : List (Nat × Nat)) (acc : List HuffmanNode),
      List.Perm (heapSymbols (freq.foldl (fun h p => heappush h (.leaf p.1 p.2)) acc))
        (heapSymbols acc ++ freq.map Prod.fst) by
    simpa [heapSymbols] using h frequency []
  intro freq
  induction freq with
  | nil => intro acc; simp
  | cons p rest ih =>
    intro acc
    simp only [List.foldl_cons, List.map_cons]
    refine (ih (heappush acc (.leaf p.1 p.2))).trans ?_
    have h1 : List.Perm (heapSymbols (heappush acc (.leaf p.1 p.2)))
        (p.1 :: heapSymbols acc) := by
      refine (heapSymbols_perm (heappush_perm _ _)).trans ?_
      simp [heapSymbols, HuffmanNode.symbols]
    refine (h1.append_right _).trans ?_
    rw [List.cons_append]
    exact List.perm_middle.symm

theorem buildCodesHelper_fst :
    ∀ (t : HuffmanNode) (c : List Bool),
      (buildCodesHelper t c).map Prod.fst = t.symbols := by
  intro t
  induction t with
  | leaf ch f => intro c; simp [buildCodesHelper, HuffmanNode.symbols]
  | internal f l r ihl ihr =>
    intro c
    simp [buildCodesHelper, HuffmanNode.symbols, ihl, ihr]

theorem buildCodesHelper_code_ne_nil :
    ∀ (t : HuffmanNode) (c : List Bool) (p : Nat × List Bool),
      p ∈ buildCodesHelper t c → p.2 ≠ [] := by
  intro t
  induction t with
  | leaf ch f =>
    intro c p hp
    simp only [buildCodesHelper, List.mem_singleton] at hp
    subst hp
    split
    · simp
    · assumption
  | internal f l r ihl ihr =>
    intro c p hp
    rcases List.mem_append.mp hp with h | h
    · exact ihl _ p h
    · exact ihr _ p h

theorem buildCodesHelper_code_prefix :
    ∀ (t : HuffmanNode) (c : List Bool), c ≠ [] →
      ∀ p ∈ buildCodesHelper t c, c <+: p.2 := by
  intro t
  induction t with
  | leaf ch f =>
    intro c hc p hp
    simp only [buildCodesHelper, List.mem_singleton] at hp
    subst hp
    simp only [if_neg hc]
    exact List.prefix_refl _
  | internal f l r ihl ihr =>
    intro c hc p hp
    rcases List.mem_append.mp hp with h | h
    · exact ((c.prefix_append [false]).trans (ihl _ (by simp) p h))
    · exact ((c.prefix_append [true]).trans (ihr _ (by simp) p h))

theorem buildCodesHelper_pairwise :
    ∀ (t : HuffmanNode) (c : List Bool),
      List.Pairwise (fun p q => ¬ p.2 <+: q.2 ∧ ¬ q.2 <+: p.2) (buildCodesHelper t c) := by
  intro t
  induction t with
  | leaf ch f => intro c; simp [buildCodesHelper]
  | internal f l r ihl ihr =>
    intro c
    rw [buildCodesHelper, List.pairwise_append]
    refine ⟨ihl _, ihr _, ?_⟩
    intro x hx y hy
    have hx1 : (c ++ [false]) <+: x.2 :=
      buildCodesHelper_code_prefix l (c ++ [false]) (by simp) x hx
    have hy1 : (c ++ [true]) <+: y.2 :=
      buildCodesHelper_code_prefix r (c ++ [true]) (by simp) y hy
    constructor
    · intro hxy
      have h1 : (c ++ [false]) <+: y.2 := hx1.trans hxy
      have h2 : (c ++ [false]) = (c ++ [true]) :=
        (List.prefix_of_prefix_length_le h1 hy1 (by simp)).eq_of_length (by simp)
      simp at h2
    · intro hyx
      have h1 : (c ++ [true]) <+: x.2 := hy1.trans hyx
      have h2 : (c ++ [true]) = (c ++ [false]) :=
        (List.prefix_of_prefix_length_le h1 hx1 (by simp)).eq_of_length (by simp)
      simp at h2

theorem buildCodes_fst (root : HuffmanNode) :
    (buildCodes [root]).map Prod.fst = root.symbols := by
  cases root with
  | leaf c f => simp [buildCodes, HuffmanNode.symbols]
  | internal f l r => exact buildCodesHelper_fst _ []

theorem buildCodes_code_ne_nil (root : HuffmanNode) :
    ∀ p ∈ buildCodes [root], p.2 ≠ [] := by
  cases root with
  | leaf c f =>
    intro p hp
    simp only [buildCodes, List.mem_singleton] at hp
    subst hp
    simp
  | internal f l r => exact fun p hp => buildCodesHelper_code_ne_nil _ [] p hp

theorem buildCodes_pairwise (root : HuffmanNode) :
    List.Pairwise (fun p q => ¬ p.2 <+: q.2 ∧ ¬ q.2 <+: p.2) (buildCodes [root]) := by
  cases root with
  | leaf c f => simp [buildCodes]
  | internal f l r => exact buildCodesHelper_pairwise _ []

theorem mem_of_lookup_eq_some {α β : Type _} [BEq α] [LawfulBEq α]
    {l : List (α × β)} {k : α} {v : β} (h : List.lookup k l = some v) : (k, v) ∈ l := by
  rcases List.lookup_eq_some_iff.mp h with ⟨l1, l2, rfl, _⟩
  simp

theorem lookup_eq_some_of_mem_nodup {α β : Type _} [BEq α] [LawfulBEq α] :
    ∀ {l : List (α × β)} {k : α} {v : β}, (l.map Prod.fst).Nodup → (k, v) ∈ l →
      List.lookup k l = some v := by
  intro l
  induction l with
  | nil => intro k v _ hm; simp at hm
  | cons p rest ih =>
    intro k v hnd hm
    rw [List.map_cons, List.nodup_cons] at hnd
    rcases List.mem_cons.mp hm with h | h
    · subst h
      simp [List.lookup_cons]
    · have hk : (k == p.1) = false := by
        simp only [beq_eq_false_iff_ne, ne_eq]
        intro hkp
        exact hnd.1 (hkp ▸ (List.mem_map_of_mem Prod.fst h))
      rw [List.lookup_cons, hk]
      exact ih hnd.2 h

theorem lookup_eq_none_of_not_mem {α β : Type _} [BEq α] [LawfulBEq α]
    {l : List (α × β)} {k : α} (h : k ∉ l.map Prod.fst) : List.lookup k l = none := by
  rw [List.lookup_eq_none_iff]
  intro p hp
  simp only [bne_iff_ne, ne_eq]
  intro hk
  exact h (hk ▸ List.mem_map_of_mem Prod.fst hp)

theorem mem_bumpFreq_keys (acc : List (Nat × Nat)) (x b : Nat) :
    b ∈ (bumpFreq acc x).map Prod.fst ↔ b ∈ acc.map Prod.fst ∨ b = x := by
  unfold bumpFreq
  split
  · rename_i hany
    have hkeys : (acc.map (fun p => if p.1 == x then (p.1, p.2 + 1) else p)).map Prod.fst
        = acc.map Prod.fst := by
      rw [List.map_map]
      apply List.map_congr_left
      intro p _
      simp only [Function.comp_apply]
      split <;> rfl
    rw [hkeys]
    constructor
    · exact Or.inl
    · rintro (h | rfl)
      · exact h
      · rcases List.any_eq_true.mp hany with ⟨p, hp, hpx⟩
        have : p.1 = b := by simpa using hpx
        exact this ▸ List.mem_map_of_mem Prod.fst hp
  · simp [List.map_append, or_comm]

theorem mem_keys_foldl_bumpFreq :
    ∀ (data : List Nat) (acc : List (Nat × Nat)) (b : Nat),
      b ∈ (data.foldl bumpFreq acc).map Prod.fst ↔ b ∈ acc.map Prod.fst ∨ b ∈ data := by
  intro data
  induction data with
  | nil => intro acc b; simp
  | cons x rest ih =>
    intro acc b
    rw [List.foldl_cons, ih, mem_bumpFreq_keys]
    simp only [List.mem_cons]
    tauto

theorem mem_keys_buildFrequencyDict {data : List Nat} {b : Nat} :
    b ∈ (buildFrequencyDict data).map Prod.fst ↔ b ∈ data := by
  unfold buildFrequencyDict
  rw [mem_keys_foldl_bumpFreq]
  simp

theorem huffmanCodes_keys (frequency : List (Nat × Nat)) :
    ∀ b ∈ frequency.map Prod.fst, b ∈ (huffmanCodes frequency).map Prod.fst := by
  intro b hb
  have hb2 : b ∈ heapSymbols (buildMinHeap frequency) :=
    (buildMinHeap_symbols frequency).mem_iff.mpr hb
  have hheap : buildMinHeap frequency ≠ [] := by
    intro hnil
    rw [hnil] at hb2
    simp [heapSymbols] at hb2
  obtain ⟨root, hroot, hperm⟩ := mergeNodes_spec _ hheap
  unfold huffmanCodes
  rw [hroot, buildCodes_fst]
  exact hperm.mem_iff.mpr hb2

theorem getEncodedData_isSome {codes : List (Nat × List Bool)} :
    ∀ {data : List Nat}, (∀ b ∈ data, b ∈ codes.map Prod.fst) →
      ∃ enc, getEncodedData codes data = some enc := by
  intro data
  induction data with
  | nil => intro _; exact ⟨[], rfl⟩
  | cons b rest ih =>
    intro hcov
    have hb : b ∈ codes.map Prod.fst := hcov b (List.mem_cons_self b rest)
    have hs : (List.lookup b codes).isSome := by
      rw [List.lookup_isSome_iff]
      rcases List.mem_map.mp hb with ⟨p, hp, hpb⟩
      exact ⟨p, hp, by simp [hpb]⟩
    obtain ⟨c, hc⟩ := Option.isSome_iff_exists.mp hs
    obtain ⟨e, he⟩ := ih (fun x hx => hcov x (List.mem_cons_of_mem b hx))
    exact ⟨c ++ e, by simp [getEncodedData, hc, he]⟩

theorem compress_eq (data : List Nat) (hne : data ≠ []) :
    ∃ enc, getEncodedData (huffmanCodes (buildFrequencyDict data)) data = some enc ∧
      compress data = some ((8 - enc.length % 8) ::
        bitsToBytes (enc ++ List.replicate ((8 - enc.length % 8) % 8) false),
        huffmanCodes (buildFrequencyDict data)) := by
  have hcov : ∀ b ∈ data, b ∈ (huffmanCodes (buildFrequencyDict data)).map Prod.fst := by
    intro b hb
    exact huffmanCodes_keys _ b (mem_keys_buildFrequencyDict.mpr hb)
  obtain ⟨enc, henc⟩ := getEncodedData_isSome hcov
  refine ⟨enc, henc, ?_⟩
  unfold compress
  rw [if_neg hne]
  by_cases h8 : enc.length % 8 = 0
  · have hpad : padEncodedData enc = (enc, 8) := by
      unfold padEncodedData
      rw [h8]
      simp
    have hba : getByteArray enc = some (bitsToBytes enc) := by
      unfold getByteArray
      rw [if_neg (by omega)]
    simp only [henc, hpad, hba]
    simp [h8]
  · have hlt : 8 - enc.length % 8 ≠ 8 := by omega
    have hpad : padEncodedData enc =
        (enc ++ List.replicate (8 - enc.length % 8) false, 8 - enc.length % 8) := by
      unfold padEncodedData
      rw [if_pos hlt]
    have hmod : (enc ++ List.replicate (8 - enc.length % 8) false).length % 8 = 0 := by
      simp only [List.length_append, List.length_replicate]
      omega
    have hba : getByteArray (enc ++ List.replicate (8 - enc.length % 8) false) =
        some (bitsToBytes (enc ++ List.replicate (8 - enc.length % 8) false)) := by
      unfold getByteArray
      rw [if_neg (by omega)]
    have hsame : (8 - enc.length % 8) % 8 = 8 - enc.length % 8 := by omega
    simp only [henc, hpad, hba, hsame]

theorem compress_isSome (data : List Nat) (hne : data ≠ []) :
    ∃ out codes, compress data = some (out, codes) := by
  obtain ⟨enc, _, hc⟩ := compress_eq data hne
  exact ⟨_, _, hc⟩

theorem natToBits_length : ∀ (w n : Nat), (natToBits w n).length = w := by
  intro w
  induction w with
  | zero => intro n; rfl
  | succ w ih => intro n; simp [natToBits, ih]

theorem bitsToNat_concat (bs : List Bool) (b : Bool) :
    bitsToNat (bs ++ [b]) = 2 * bitsToNat bs + (if b then 1 else 0) := by
  unfold bitsToNat
  rw [List.foldl_append]
  rfl

theorem natToBits_bitsToNat :
    ∀ (bits : List Bool) (w : Nat), bits.length = w → natToBits w (bitsToNat bits) = bits := by
  intro bits
  induction bits using List.reverseRecOn with
  | nil =>
    intro w hw
    simp at hw
    subst hw
    rfl
  | append_singleton bs b ih =>
    intro w hw
    rw [List.length_append, List.length_singleton] at hw
    subst hw
    rw [bitsToNat_concat, natToBits]
    have hdiv : (2 * bitsToNat bs + (if b then 1 else 0)) / 2 = bitsToNat bs := by
      cases b <;> simp <;> omega
    have hmod : ((2 * bitsToNat bs + (if b then 1 else 0)) % 2 == 1) = b := by
      cases b <;> simp [Nat.add_mul_mod_self_left] <;> omega
    rw [hdiv, hmod, ih bs.length rfl]

theorem bitsToNat_lt : ∀ (bits : List Bool), bitsToNat bits < 2 ^ bits.length := by
  intro bits
  induction bits using List.reverseRecOn with
  | nil => simp [bitsToNat]
  | append_singleton bs b ih =>
    rw [bitsToNat_concat, List.length_append, List.length_singleton, Nat.pow_succ]
    cases b <;> simp <;> omega

theorem bitsToNat_natToBits :
    ∀ (w n : Nat), n < 2 ^ w → bitsToNat (natToBits w n) = n := by
  intro w
  induction w with
  | zero =>
    intro n hn
    simp [Nat.pow_zero] at hn
    simp [natToBits, bitsToNat, hn]
  | succ w ih =>
    intro n hn
    rw [natToBits, bitsToNat_concat]
    have hdiv : n / 2 < 2 ^ w := by
      rw [Nat.pow_succ] at hn
      omega
    rw [ih _ hdiv]
    have : (if (n % 2 == 1) = true then 1 else 0) = n % 2 := by
      rcases Nat.mod_two_eq_zero_or_one n with h | h <;> simp [h]
    rw [this]
    omega

theorem bitsToBytesLoop_flatMap :
    ∀ (fuel : Nat) (bits : List Bool), bits.length ≤ fuel → bits.length % 8 = 0 →
      (bitsToBytesLoop fuel bits).flatMap (natToBits 8) = bits := by
  intro fuel
  induction fuel with
  | zero =>
    intro bits hk _
    have : bits = [] := List.length_eq_zero.mp (Nat.le_zero.mp hk)
    subst this
    rfl
  | succ fuel ih =>
    intro bits hk hmod
    by_cases hnil : bits = []
    · subst hnil
      rfl
    · rw [bitsToBytesLoop, if_neg hnil, List.flatMap_cons]
      have hlen : 8 ≤ bits.length := by
        have := List.length_pos.mpr hnil
        omega
      have htake : (bits.take 8).length = 8 := by
        rw [List.length_take]
        omega
      have h1 : natToBits 8 (bitsToNat (bits.take 8)) = bits.take 8 :=
        natToBits_bitsToNat _ 8 htake
      have h2 : (bitsToBytesLoop fuel (bits.drop 8)).flatMap (natToBits 8) = bits.drop 8 := by
        apply ih
        · rw [List.length_drop]; omega
        · rw [List.length_drop]; omega
      rw [h1, h2, List.take_append_drop]

theorem bitsToBytes_flatMap (bits : List Bool) (hmod : bits.length % 8 = 0) :
    (bitsToBytes bits).flatMap (natToBits 8) = bits :=
  bitsToBytesLoop_flatMap bits.length bits (Nat.le_refl _) hmod

theorem bitsToBytesLoop_length :
    ∀ (fuel : Nat) (bits : List Bool), bits.length ≤ fuel →
      (bitsToBytesLoop fuel bits).length = (bits.length + 7) / 8 := by
  intro fuel
  induction fuel with
  | zero =>
    intro bits hk
    have : bits = [] := List.length_eq_zero.mp (Nat.le_zero.mp hk)
    subst this
    rfl
  | succ fuel ih =>
    intro bits hk
    by_cases hnil : bits = []
    · subst hnil
      rfl
    · rw [bitsToBytesLoop, if_neg hnil, List.length_cons]
      have hpos := List.length_pos.mpr hnil
      rw [ih (bits.drop 8) (by rw [List.length_drop]; omega)]
      rw [List.length_drop]
      omega

theorem bitsToBytes_length (bits : List Bool) :
    (bitsToBytes bits).length = (bits.length + 7) / 8 :=
  bitsToBytesLoop_length bits.length bits (Nat.le_refl _)

theorem decodeData_eq (rev : List (List Bool × Nat)) (bits : List Bool) :
    decodeData rev bits =
      if (decodeLoop rev bits [] []).1 = [] then some (decodeLoop rev bits [] []).2
      else none := by
  unfold decodeData
  rcases hFS : decodeLoop rev bits [] [] with ⟨F, S⟩
  cases F <;> simp

theorem decodeLoop_acc (rev : List (List Bool × Nat)) :
    ∀ (bits cur : List Bool) (acc : List Nat),
      decodeLoop rev bits cur acc =
        ((decodeLoop rev bits cur []).1, acc ++ (decodeLoop rev bits cur []).2) := by
  intro bits
  induction bits with
  | nil => intro cur acc; simp [decodeLoop]
  | cons b rest ih =>
    intro cur acc
    cases hl : List.lookup (cur ++ [b]) rev with
    | some byte =>
      simp only [decodeLoop, hl, List.nil_append]
      rw [ih [] (acc ++ [byte]), ih [] [byte]]
      simp
    | none =>
      simp only [decodeLoop, hl]
      exact ih _ _

theorem properPrefix_not_key {rev : List (List Bool × Nat)}
    (hpf : List.Pairwise (fun p q => ¬ p.1 <+: q.1 ∧ ¬ q.1 <+: p.1) rev)
    {code : List Bool} {s : Nat} (hmem : (code, s) ∈ rev)
    {c : List Bool} (hc : c <+: code) (hcne : c ≠ code) : c ∉ rev.map Prod.fst := by
  intro hmemk
  rcases List.mem_map.mp hmemk with ⟨q, hq, hqk⟩
  have hqq : q ≠ (code, s) := by
    intro hqe
    rw [hqe] at hqk
    exact hcne hqk.symm
  have hsym : Symmetric (fun p q : List Bool × Nat => ¬ p.1 <+: q.1 ∧ ¬ q.1 <+: p.1) :=
    fun p q h => ⟨h.2, h.1⟩
  have hR := (List.Pairwise.forall hsym hpf) hq hmem hqq
  exact hR.1 (hqk ▸ hc)

theorem decodeLoop_code {rev : List (List Bool × Nat)}
    (hnd : (rev.map Prod.fst).Nodup)
    (hpf : List.Pairwise (fun p q => ¬ p.1 <+: q.1 ∧ ¬ q.1 <+: p.1) rev)
    {code : List Bool} {s : Nat} (hmem : (code, s) ∈ rev) :
    ∀ (suf pre rest : List Bool) (acc : List Nat),
      pre ++ suf = code → suf ≠ [] →
      decodeLoop rev (suf ++ rest) pre acc = decodeLoop rev rest [] (acc ++ [s]) := by
  intro suf
  induction suf with
  | nil => intro pre rest acc _ hne; exact absurd rfl hne
  | cons b suftail ih =>
    intro pre rest acc heq _
    rw [List.cons_append]
    simp only [decodeLoop]
    cases suftail with
    | nil =>
      have hcur : pre ++ [b] = code := by simpa using heq
      have hlook : List.lookup (pre ++ [b]) rev = some s := by
        rw [hcur]
        exact lookup_eq_some_of_mem_nodup hnd hmem
      simp only [hlook]
      rw [List.nil_append]
    | cons b2 suftail2 =>
      have hpre : (pre ++ [b]) ++ (b2 :: suftail2) = code := by simpa using heq
      have hproper : pre ++ [b] ≠ code := by
        intro hc
        rw [← hc] at hpre
        have := congrArg List.length hpre
        simp at this
      have hprefix : (pre ++ [b]) <+: code := ⟨b2 :: suftail2, hpre⟩
      have hlook : List.lookup (pre ++ [b]) rev = none :=
        lookup_eq_none_of_not_mem (properPrefix_not_key hpf hmem hprefix hproper)
      simp only [hlook]
      exact ih (pre ++ [b]) rest acc hpre (by simp)

theorem decodeLoop_partial {rev : List (List Bool × Nat)}
    (hpf : List.Pairwise (fun p q => ¬ p.1 <+: q.1 ∧ ¬ q.1 <+: p.1) rev)
    {code : List Bool} {s : Nat} (hmem : (code, s) ∈ rev) :
    ∀ (bits pre : List Bool) (acc : List Nat),
      (pre ++ bits) <+: code → pre ++ bits ≠ code →
      decodeLoop rev bits pre acc = (pre ++ bits, acc) := by
  intro bits
  induction bits with
  | nil => intro pre acc _ _; simp [decodeLoop]
  | cons b rest ih =>
    intro pre acc hprefix hne
    simp only [decodeLoop]
    have hassoc : (pre ++ [b]) ++ rest = pre ++ (b :: rest) := by simp
    have hcurpre : ((pre ++ [b]) ++ rest) <+: code := by rw [hassoc]; exact hprefix
    have hcur_prefix : (pre ++ [b]) <+: code :=
      ((pre ++ [b]).prefix_append rest).trans hcurpre
    have hcurne : pre ++ [b] ≠ code := by
      intro hc
      rw [hc] at hcurpre
      have hlen := hcurpre.length_le
      simp only [List.length_append] at hlen
      have hrest : rest = [] := List.length_eq_zero.mp (by omega)
      subst hrest
      exact hne (by simpa using hc)
    have hlook : List.lookup (pre ++ [b]) rev = none :=
      lookup_eq_none_of_not_mem (properPrefix_not_key hpf hmem hcur_prefix hcurne)
    simp only [hlook]
    rw [ih (pre ++ [b]) acc hcurpre (by rw [hassoc]; exact hne)]
    rw [hassoc]

theorem rev_keys_nodup {codes : List (Nat × List Bool)}
    (hpw : List.Pairwise (fun p q => ¬ p.2 <+: q.2 ∧ ¬ q.2 <+: p.2) codes) :
    ((codes.map fun p => (p.2, p.1)).map Prod.fst).Nodup := by
  rw [List.map_map]
  refine List.Pairwise.map _ ?_ hpw
  intro a b h he
  have he2 : a.2 = b.2 := he
  exact h.1 (he2 ▸ List.prefix_refl a.2)

theorem rev_pairwise {codes : List (Nat × List Bool)}
    (hpw : List.Pairwise (fun p q => ¬ p.2 <+: q.2 ∧ ¬ q.2 <+: p.2) codes) :
    List.Pairwise (fun p q => ¬ p.1 <+: q.1 ∧ ¬ q.1 <+: p.1)
      (codes.map fun p => (p.2, p.1)) :=
  List.Pairwise.map _ (fun a b h => h) hpw

theorem huffmanCodes_pairwise (frequency : List (Nat × Nat)) :
    List.Pairwise (fun p q => ¬ p.2 <+: q.2 ∧ ¬ q.2 <+: p.2) (huffmanCodes frequency) := by
  by_cases hne : frequency = []
  · subst hne
    simp [huffmanCodes, buildMinHeap, mergeNodes, mergeNodesLoop, buildCodes]
  · have hheap : buildMinHeap frequency ≠ [] := by
      intro hnil
      have hperm := buildMinHeap_symbols frequency
      rw [hnil] at hperm
      simp [heapSymbols] at hperm
      exact hne hperm
    obtain ⟨root, hroot, _⟩ := mergeNodes_spec _ hheap
    unfold huffmanCodes
    rw [hroot]
    exact buildCodes_pairwise root

theorem huffmanCodes_code_ne_nil (frequency : List (Nat × Nat)) :
    ∀ p ∈ huffmanCodes frequency, p.2 ≠ [] := by
  by_cases hne : frequency = []
  · subst hne
    simp [huffmanCodes, buildMinHeap, mergeNodes, mergeNodesLoop, buildCodes]
  · have hheap : buildMinHeap frequency ≠ [] := by
      intro hnil
      have hperm := buildMinHeap_symbols frequency
      rw [hnil] at hperm
      simp [heapSymbols] at hperm
      exact hne hperm
    obtain ⟨root, hroot, _⟩ := mergeNodes_spec _ hheap
    unfold huffmanCodes
    rw [hroot]
    exact buildCodes_code_ne_nil root

theorem decodeLoop_encode {codes : List (Nat × List Bool)}
    (hpw : List.Pairwise (fun p q => ¬ p.2 <+: q.2 ∧ ¬ q.2 <+: p.2) codes)
    (hcne : ∀ p ∈ codes, p.2 ≠ []) :
    ∀ (data : List Nat) (enc : List Bool) (acc : List Nat),
      getEncodedData codes data = some enc →
      decodeLoop (codes.map fun p => (p.2, p.1)) enc [] acc = ([], acc ++ data) := by
  have hnd := rev_keys_nodup hpw
  have hrpf := rev_pairwise hpw
  intro data
  induction data with
  | nil =>
    intro enc acc h
    simp only [getEncodedData, Option.some.injEq] at h
    subst h
    simp [decodeLoop]
  | cons b rest ih =>
    intro enc acc h
    rw [getEncodedData] at h
    cases hl : List.lookup b codes with
    | none => rw [hl] at h; cases h
    | some c =>
      cases hr : getEncodedData codes rest with
      | none => rw [hl, hr] at h; cases h
      | some e =>
        rw [hl, hr] at h
        simp only [Option.some.injEq] at h
        subst h
        have hmem : (b, c) ∈ codes := mem_of_lookup_eq_some hl
        have hmemrev : (c, b) ∈ codes.map (fun p => (p.2, p.1)) :=
          List.mem_map.mpr ⟨(b, c), hmem, rfl⟩
        have hc2 : c ≠ [] := hcne (b, c) hmem
        rw [decodeLoop_code hnd hrpf hmemrev c [] e acc rfl hc2]
        rw [ih e (acc ++ [b]) hr]
        simp

theorem decodeData_encode {codes : List (Nat × List Bool)}
    (hpw : List.Pairwise (fun p q => ¬ p.2 <+: q.2 ∧ ¬ q.2 <+: p.2) codes)
    (hcne : ∀ p ∈ codes, p.2 ≠ []) {data : List Nat} {enc : List Bool}
    (h : getEncodedData codes data = some enc) :
    decodeData (codes.map fun p => (p.2, p.1)) enc = some data := by
  rw [decodeData_eq, decodeLoop_encode hpw hcne data enc [] h]
  simp

theorem decodeData_take {codes : List (Nat × List Bool)}
    (hpw : List.Pairwise (fun p q => ¬ p.2 <+: q.2 ∧ ¬ q.2 <+: p.2) codes)
    (hcne : ∀ p ∈ codes, p.2 ≠ []) :
    ∀ (data : List Nat) (enc : List Bool) (n : Nat),
      getEncodedData codes data = some enc → n < enc.length →
      decodeData (codes.map fun p => (p.2, p.1)) (enc.take n) = none ∨
        ∃ pre, pre <+: data ∧ pre ≠ data ∧
          decodeData (codes.map fun p => (p.2, p.1)) (enc.take n) = some pre := by
  have hnd := rev_keys_nodup hpw
  have hrpf := rev_pairwise hpw
  intro data
  induction data with
  | nil =>
    intro enc n h hn
    simp only [getEncodedData, Option.some.injEq] at h
    subst h
    simp at hn
  | cons b rest ih =>
    intro enc n h hn
    rw [getEncodedData] at h
    cases hl : List.lookup b codes with
    | none => rw [hl] at h; cases h
    | some c =>
      cases hr : getEncodedData codes rest with
      | none => rw [hl, hr] at h; cases h
      | some e =>
        rw [hl, hr] at h
        simp only [Option.some.injEq] at h
        subst h
        have hmem : (b, c) ∈ codes := mem_of_lookup_eq_some hl
        have hmemrev : (c, b) ∈ codes.map (fun p => (p.2, p.1)) :=
          List.mem_map.mpr ⟨(b, c), hmem, rfl⟩
        have hc2 : c ≠ [] := hcne (b, c) hmem
        by_cases hcase : c.length ≤ n
        · have htake : (c ++ e).take n = c ++ e.take (n - c.length) := by
            rw [List.take_append_eq_append_take, List.take_all_of_le hcase]
          rw [htake]
          have hn2 : n - c.length < e.length := by
            rw [List.length_append] at hn
            omega
          rw [decodeData_eq,
            decodeLoop_code hnd hrpf hmemrev c [] (e.take (n - c.length)) [] rfl hc2]
          simp only [List.nil_append]
          rw [decodeLoop_acc _ (e.take (n - c.length)) [] [b]]
          have hkey := decodeData_eq (codes.map fun p => (p.2, p.1)) (e.take (n - c.length))
          rcases ih e (n - c.length) hr hn2 with hnone | ⟨pre, hp1, hp2, hp3⟩
          · left
            rw [hkey] at hnone
            by_cases hF : (decodeLoop (codes.map fun p => (p.2, p.1))
                (e.take (n - c.length)) [] []).1 = []
            · rw [if_pos hF] at hnone; cases hnone
            · simp [hF]
          · right
            rw [hkey] at hp3
            by_cases hF : (decodeLoop (codes.map fun p => (p.2, p.1))
                (e.take (n - c.length)) [] []).1 = []
            · rw [if_pos hF] at hp3
              simp only [Option.some.injEq] at hp3
              refine ⟨b :: pre, ?_, ?_, ?_⟩
              · exact (List.cons_prefix_cons).mpr ⟨rfl, hp1⟩
              · intro hbp
                exact hp2 (by simpa using hbp)
              · simp [hF, hp3]
            · rw [if_neg hF] at hp3; cases hp3
        · by_cases hn0 : n = 0
          · subst hn0
            right
            refine ⟨[], List.nil_prefix, by simp, ?_⟩
            simp [decodeData, decodeLoop]
          · left
            have htake : (c ++ e).take n = c.take n := by
              rw [List.take_append_eq_append_take]
              have : n - c.length = 0 := by omega
              rw [this]
              simp
            rw [htake]
            have htp : ([] : List Bool) ++ c.take n <+: c := by
              rw [List.nil_append]
              exact List.take_prefix n c
            have htne : ([] : List Bool) ++ c.take n ≠ c := by
              rw [List.nil_append]
              intro hteq
              have hlt := List.length_take_le n c
              rw [hteq] at hlt
              omega
            rw [decodeData_eq, decodeLoop_partial hrpf hmemrev (c.take n) [] [] htp htne]
            have hne2 : c.take n ≠ [] := by
              intro hteq
              rcases List.take_eq_nil_iff.mp hteq with h0 | h0
              · exact hn0 h0
              · exact hc2 h0
            simp only [List.nil_append]
            rw [if_neg hne2]

theorem bumpFreq_of_any_true {acc : List (Nat × Nat)} {b : Nat}
    (h : acc.any (fun p => p.1 == b) = true) :
    bumpFreq acc b = acc.map (fun p => if p.1 == b then (p.1, p.2 + 1) else p) := by
  unfold bumpFreq
  rw [if_pos h]

theorem bumpFreq_of_any_false {acc : List (Nat × Nat)} {b : Nat}
    (h : acc.any (fun p => p.1 == b) = false) :
    bumpFreq acc b = acc ++ [(b, 1)] := by
  unfold bumpFreq
  rw [if_neg (by simp [h])]

theorem foldl_bumpFreq_replicate_mem :
    ∀ (n : Nat) (acc : List (Nat × Nat)) (b : Nat),
      acc.any (fun p => p.1 == b) = true →
      (List.replicate n b).foldl bumpFreq acc =
        acc.map (fun p => if p.1 == b then (p.1, p.2 + n) else p) := by
  intro n
  induction n with
  | zero =>
    intro acc b _
    simp only [List.replicate, List.foldl_nil]
    have hcongr : ∀ p ∈ acc, (if p.1 == b then (p.1, p.2 + 0) else p) = id p := by
      intro p _
      split
      · rfl
      · rfl
    rw [List.map_congr_left hcongr, List.map_id]
  | succ n ih =>
    intro acc b hmem
    rw [List.replicate_succ, List.foldl_cons, bumpFreq_of_any_true hmem]
    have hmem2 : (acc.map (fun p => if p.1 == b then (p.1, p.2 + 1) else p)).any
        (fun p => p.1 == b) = true := by
      rcases List.any_eq_true.mp hmem with ⟨p, hp, hpb⟩
      apply List.any_eq_true.mpr
      refine ⟨(if p.1 == b then (p.1, p.2 + 1) else p), List.mem_map_of_mem _ hp, ?_⟩
      simp [hpb]
    rw [ih _ b hmem2, List.map_map]
    apply List.map_congr_left
    intro p _
    by_cases hpb : (p.1 == b) = true
    · simp only [Function.comp_apply, hpb, if_pos]
      simp only [Prod.mk.injEq, true_and]
      omega
    · simp only [Function.comp_apply, Bool.not_eq_true] at hpb
      simp only [Function.comp_apply, hpb]
      simp [hpb]

theorem foldl_bumpFreq_replicate_new :
    ∀ (n : Nat) (acc : List (Nat × Nat)) (b : Nat),
      acc.any (fun p => p.1 == b) = false → 0 < n →
      (List.replicate n b).foldl bumpFreq acc =
        (acc ++ [(b, 1)]).map
          (fun p : Nat × Nat => if p.1 == b then (p.1, p.2 + (n - 1)) else p) := by
  intro n acc b h hn
  obtain ⟨m, rfl⟩ : ∃ m, n = m + 1 := ⟨n - 1, by omega⟩
  rw [List.replicate_succ, List.foldl_cons, bumpFreq_of_any_false h]
  simp only [Nat.add_sub_cancel]
  refine foldl_bumpFreq_replicate_mem m (acc ++ [(b, 1)]) b ?_
  have hmem : (b, 1) ∈ acc ++ [(b, 1)] := by simp
  exact List.any_eq_true.mpr ⟨(b, 1), hmem, by simp⟩

theorem buildFrequencyDict_skewedInput :
    buildFrequencyDict skewedInput = [(97, 1000), (98, 500), (99, 250), (100, 125)] := by
  have h1 : (List.replicate 1000 97).foldl bumpFreq [] = [(97, 1000)] := by
    rw [foldl_bumpFreq_replicate_new 1000 [] 97 rfl (by omega)]
    decide
  have h2 : (List.replicate 500 98).foldl bumpFreq [(97, 1000)] = [(97, 1000), (98, 500)] := by
    rw [foldl_bumpFreq_replicate_new 500 [(97, 1000)] 98 (by decide) (by omega)]
    decide
  have h3 : (List.replicate 250 99).foldl bumpFreq [(97, 1000), (98, 500)] =
      [(97, 1000), (98, 500), (99, 250)] := by
    rw [foldl_bumpFreq_replicate_new 250 [(97, 1000), (98, 500)] 99 (by decide) (by omega)]
    decide
  have h4 : (List.replicate 125 100).foldl bumpFreq [(97, 1000), (98, 500), (99, 250)] =
      [(97, 1000), (98, 500), (99, 250), (100, 125)] := by
    rw [foldl_bumpFreq_replicate_new 125 [(97, 1000), (98, 500), (99, 250)] 100 (by decide)
      (by omega)]
    decide
  unfold buildFrequencyDict skewedInput
  rw [List.foldl_append, List.foldl_append, List.foldl_append, h1, h2, h3, h4]

theorem getEncodedData_append {codes : List (Nat × List Bool)} :
    ∀ {l1 l2 : List Nat} {e1 e2 : List Bool},
      getEncodedData codes l1 = some e1 → getEncodedData codes l2 = some e2 →
      getEncodedData codes (l1 ++ l2) = some (e1 ++ e2) := by
  intro l1
  induction l1 with
  | nil =>
    intro l2 e1 e2 h1 h2
    simp only [getEncodedData, Option.some.injEq] at h1
    subst h1
    simpa using h2
  | cons b rest ih =>
    intro l2 e1 e2 h1 h2
    rw [getEncodedData] at h1
    cases hl : List.lookup b codes with
    | none => rw [hl] at h1; cases h1
    | some c =>
      cases hr : getEncodedData codes rest with
      | none => rw [hl, hr] at h1; cases h1
      | some e =>
        rw [hl, hr] at h1
        simp only [Option.some.injEq] at h1
        subst h1
        rw [List.cons_append, getEncodedData, hl, ih hr h2]
        simp

theorem getEncodedData_replicate (codes : List (Nat × List Bool)) (b : Nat) (c : List Bool)
    (hl : List.lookup b codes = some c) :
    ∀ n, ∃ e, getEncodedData codes (List.replicate n b) = some e ∧
      e.length = n * c.length := by
  intro n
  induction n with
  | zero => exact ⟨[], rfl, by simp⟩
  | succ n ih =>
    obtain ⟨e, he, hlen⟩ := ih
    refine ⟨c ++ e, ?_, ?_⟩
    · rw [List.replicate_succ, getEncodedData, hl, he]
    · rw [List.length_append, hlen, Nat.succ_mul]
      omega

theorem decompress_compress (data : List Nat) (hne : data ≠ [])
    {out : List Nat} {codes : List (Nat × List Bool)} {enc : List Bool}
    (hc : compress data = some (out, codes))
    (henc : getEncodedData codes data = some enc)
    (hmod : enc.length % 8 ≠ 0) :
    decompress out codes = some data := by
  obtain ⟨enc2, henc2, hc2⟩ := compress_eq data hne
  rw [hc] at hc2
  simp only [Option.some.injEq, Prod.mk.injEq] at hc2
  obtain ⟨hout, hcodes⟩ := hc2
  subst hcodes
  rw [henc2] at henc
  simp only [Option.some.injEq] at henc
  subst henc
  subst hout
  have hp1 : 1 ≤ 8 - enc2.length % 8 := by omega
  have hp7 : 8 - enc2.length % 8 ≤ 7 := by omega
  have hpadlen : (enc2 ++ List.replicate ((8 - enc2.length % 8) % 8) false).length % 8 = 0 := by
    simp only [List.length_append, List.length_replicate]
    omega
  unfold decompress
  rw [if_neg (by simp)]
  rw [List.flatMap_cons, bitsToBytes_flatMap _ hpadlen]
  rw [List.take_left' (natToBits_length 8 _), List.drop_left' (natToBits_length 8 _)]
  rw [bitsToNat_natToBits 8 _ (by omega)]
  unfold removePadding
  rw [if_pos (by omega)]
  have hmod2 : (8 - enc2.length % 8) % 8 = 8 - enc2.length % 8 := by omega
  rw [hmod2]
  have hlen2 : (enc2 ++ List.replicate (8 - enc2.length % 8) false).length -
      (8 - enc2.length % 8) = enc2.length := by
    simp only [List.length_append, List.length_replicate]
    omega
  rw [hlen2, List.take_left' rfl]
  exact decodeData_encode (huffmanCodes_pairwise _) (huffmanCodes_code_ne_nil _) henc2

theorem getEncodedData_ne_nil {codes : List (Nat × List Bool)}
    (hcne : ∀ p ∈ codes, p.2 ≠ []) :
    ∀ {data : List Nat} {enc : List Bool}, data ≠ [] →
      getEncodedData codes data = some enc → enc ≠ [] := by
  intro data enc hne h
  match data with
  | [] => exact absurd rfl hne
  | b :: rest =>
    rw [getEncodedData] at h
    cases hl : List.lookup b codes with
    | none => rw [hl] at h; cases h
    | some c =>
      cases hr : getEncodedData codes rest with
      | none => rw [hl, hr] at h; cases h
      | some e =>
        rw [hl, hr] at h
        simp only [Option.some.injEq] at h
        subst h
        have hc2 := hcne (b, c) (mem_of_lookup_eq_some hl)
        intro habs
        exact hc2 (List.append_eq_nil.mp habs).1

theorem truncatedDecode_compress (data : List Nat) (hne : data ≠ []) (k : Nat)
    (hk1 : 1 ≤ k) (hk7 : k ≤ 7)
    {out : List Nat} {codes : List (Nat × List Bool)}
    (hc : compress data = some (out, codes)) :
    truncatedDecode out codes k = none ∨
      ∃ pre, pre <+: data ∧ pre ≠ data ∧ truncatedDecode out codes k = some pre := by
  obtain ⟨enc, henc, hc2⟩ := compress_eq data hne
  rw [hc] at hc2
  simp only [Option.some.injEq, Prod.mk.injEq] at hc2
  obtain ⟨hout, hcodes⟩ := hc2
  subst hcodes
  subst hout
  have hencne : enc ≠ [] := getEncodedData_ne_nil (huffmanCodes_code_ne_nil _) hne henc
  have hel : 1 ≤ enc.length := List.length_pos.mpr hencne
  have hpadlen : (enc ++ List.replicate ((8 - enc.length % 8) % 8) false).length % 8 = 0 := by
    simp only [List.length_append, List.length_replicate]
    omega
  simp only [truncatedDecode]
  rw [bitsToBytes_flatMap _ hpadlen]
  by_cases h8 : enc.length % 8 = 0
  · have hrep : (8 - enc.length % 8) % 8 = 0 := by omega
    rw [hrep, List.replicate_zero, List.append_nil]
    unfold removePadding
    rw [if_pos (by omega)]
    have hlenX : (enc.take (enc.length - k)).length = enc.length - k := by
      rw [List.length_take, Nat.min_eq_left (by omega)]
    rw [hlenX, List.take_take, Nat.min_eq_left (by omega)]
    have harith : enc.length - k - (8 - enc.length % 8) = enc.length - k - 8 := by omega
    rw [harith]
    exact decodeData_take (huffmanCodes_pairwise _) (huffmanCodes_code_ne_nil _) data enc
      (enc.length - k - 8) henc (by omega)
  · have hrep : (8 - enc.length % 8) % 8 = 8 - enc.length % 8 := by omega
    rw [hrep]
    have hplen : (enc ++ List.replicate (8 - enc.length % 8) false).length =
        enc.length + (8 - enc.length % 8) := by simp
    unfold removePadding
    rw [if_pos (by omega)]
    have hlen1 : ((enc ++ List.replicate (8 - enc.length % 8) false).take
        ((enc ++ List.replicate (8 - enc.length % 8) false).length - k)).length =
        enc.length + (8 - enc.length % 8) - k := by
      rw [List.length_take, hplen, Nat.min_eq_left (by omega)]
    rw [hlen1, hplen, List.take_take, Nat.min_eq_left (by omega)]
    have harith : enc.length + (8 - enc.length % 8) - k - (8 - enc.length % 8) =
        enc.length - k := by omega
    rw [harith]
    have htakeapp : (enc ++ List.replicate (8 - enc.length % 8) false).take (enc.length - k) =
        enc.take (enc.length - k) := by
      rw [List.take_append_eq_append_take]
      have hz : enc.length - k - enc.length = 0 := by omega
      rw [hz]
      simp
    rw [htakeapp]
    exact decodeData_take (huffmanCodes_pairwise _) (huffmanCodes_code_ne_nil _) data enc
      (enc.length - k) henc (by omega)

/-- Claim C1: the claimed round-trip identity decompress(*compress(d)) = d
fails on the code.  On the eight-byte input of repeated byte 97 the
concatenated code bit-string has length 8, so the encoder stores 8 in
the metadata byte without appending padding bits, and the decoder then
strips eight data bits: the round trip returns the empty sequence
instead of the input. -/
theorem claim_C1_roundtrip_bug :
    compress (List.replicate 8 97) = some ([8, 0], [(97, [false])]) ∧
      decompress [8, 0] [(97, [false])] = some [] ∧
      ([] : List Nat) ≠ List.replicate 8 97 := by
  refine ⟨by decide, by decide, by decide⟩

/-- Claim C2 counterexample: for the eight-byte input of repeated 97 the
concatenated code bit-string has length 8, so the padding count claimed
by the spec is (8 - 8 mod 8) mod 8 = 0, but the leading metadata byte of
the packed output is 8. -/
theorem claim_C2_counterexample :
    compress (List.replicate 8 97) = some ([8, 0], [(97, [false])]) ∧
      (8 : Nat) ≠ (8 - 8 % 8) % 8 := by
  refine ⟨by decide, by decide⟩

/-- Claim C2 (amended): for every non-empty input the packed output is
one leading metadata byte holding 8 - len mod 8 for the concatenated
code bit-string of length len (this equals the claimed p when len is not
a multiple of 8, and is 8 rather than 0 when it is), followed by the
bit-string right-padded with (8 - len mod 8) mod 8 zero bits and split
into 8-bit groups. -/
theorem claim_C2_amended_packed_format (data : List Nat) (hne : data ≠ [])
    {out : List Nat} {codes : List (Nat × List Bool)}
    (hc : compress data = some (out, codes)) :
    ∃ enc, getEncodedData codes data = some enc ∧
      out = (8 - enc.length % 8) ::
        bitsToBytes (enc ++ List.replicate ((8 - enc.length % 8) % 8) false) := by
  obtain ⟨enc, henc, hc2⟩ := compress_eq data hne
  rw [hc] at hc2
  simp only [Option.some.injEq, Prod.mk.injEq] at hc2
  obtain ⟨hout, hcodes⟩ := hc2
  subst hcodes
  exact ⟨enc, henc, hout⟩

theorem claim_C2_amended_witness :
    ([97, 97, 97, 97] : List Nat) ≠ [] ∧
      compress [97, 97, 97, 97] = some ([4, 0], [(97, [false])]) ∧
      ∃ enc, getEncodedData [(97, [false])] [97, 97, 97, 97] = some enc ∧
        ([4, 0] : List Nat) = (8 - enc.length % 8) ::
          bitsToBytes (enc ++ List.replicate ((8 - enc.length % 8) % 8) false) :=
  ⟨by decide, by decide,
    claim_C2_amended_packed_format [97, 97, 97, 97] (by decide) (by decide)⟩

/-- Claim C3 counterexample: compressing four bytes 97 and removing one
trailing bit from the packed body decodes silently to three bytes 97
instead of raising the incomplete-code error, because the truncation
falls on a code boundary. -/
theorem claim_C3_counterexample :
    compress (List.replicate 4 97) = some ([4, 0], [(97, [false])]) ∧
      truncatedDecode [4, 0] [(97, [false])] 1 = some [97, 97, 97] := by
  refine ⟨by decide, by decide⟩

/-- Claim C3 (amended): removing k trailing bits (1 ≤ k ≤ 7) from the
packed body bit-string of a valid compressed result and running the
decode pipeline with the original code table either raises the
incomplete-code error or silently returns a strict prefix of the
original input; the error is not guaranteed, since a truncation landing
on a code boundary decodes cleanly. -/
theorem claim_C3_amended_truncation (data : List Nat) (hne : data ≠ []) (k : Nat)
    (hk1 : 1 ≤ k) (hk7 : k ≤ 7)
    {out : List Nat} {codes : List (Nat × List Bool)}
    (hc : compress data = some (out, codes)) :
    truncatedDecode out codes k = none ∨
      ∃ pre, pre <+: data ∧ pre ≠ data ∧ truncatedDecode out codes k = some pre :=
  truncatedDecode_compress data hne k hk1 hk7 hc

theorem claim_C3_amended_witness :
    ([97, 97, 98] : List Nat) ≠ [] ∧ 1 ≤ 3 ∧ 3 ≤ 7 ∧
      compress [97, 97, 98] = some ([5, 192], [(98, [false]), (97, [true])]) ∧
      (truncatedDecode [5, 192] [(98, [false]), (97, [true])] 3 = none ∨
        ∃ pre, pre <+: [97, 97, 98] ∧ pre ≠ [97, 97, 98] ∧
          truncatedDecode [5, 192] [(98, [false]), (97, [true])] 3 = some pre) :=
  ⟨by decide, by decide, by decide, by decide,
    claim_C3_amended_truncation [97, 97, 98] (by decide) 3 (by decide) (by decide) (by decide)⟩

/-- Claim C4: on a non-empty packed input, decompress raises exactly
when the decode walk over the de-padded bit-string finishes with a
non-empty accumulated candidate, and when the candidate finishes empty
it succeeds and returns the emitted bytes. -/
theorem claim_C4_error_iff_leftover (compressedData : List Nat)
    (codes : List (Nat × List Bool)) (hne : compressedData ≠ []) :
    (decompress compressedData codes = none ↔
      (decodeLoop (codes.map fun p => (p.2, p.1))
        (removePadding ((compressedData.flatMap (natToBits 8)).drop 8)
          (bitsToNat ((compressedData.flatMap (natToBits 8)).take 8))) [] []).1 ≠ []) ∧
    ((decodeLoop (codes.map fun p => (p.2, p.1))
        (removePadding ((compressedData.flatMap (natToBits 8)).drop 8)
          (bitsToNat ((compressedData.flatMap (natToBits 8)).take 8))) [] []).1 = [] →
      decompress compressedData codes = some
        (decodeLoop (codes.map fun p => (p.2, p.1))
          (removePadding ((compressedData.flatMap (natToBits 8)).drop 8)
            (bitsToNat ((compressedData.flatMap (natToBits 8)).take 8))) [] []).2) := by
  unfold decompress
  rw [if_neg hne, decodeData_eq]
  constructor
  · constructor
    · intro h hF
      rw [if_pos hF] at h
      cases h
    · intro hF
      rw [if_neg hF]
  · intro hF
    rw [if_pos hF]

theorem claim_C4_witness :
    ([4, 0] : List Nat) ≠ [] ∧
      ((decompress [4, 0] [(97, [false])] = none ↔
        (decodeLoop ([(97, [false])].map fun p => (p.2, p.1))
          (removePadding ((([4, 0] : List Nat).flatMap (natToBits 8)).drop 8)
            (bitsToNat ((([4, 0] : List Nat).flatMap (natToBits 8)).take 8))) [] []).1 ≠ []) ∧
      (((decodeLoop ([(97, [false])].map fun p => (p.2, p.1))
          (removePadding ((([4, 0] : List Nat).flatMap (natToBits 8)).drop 8)
            (bitsToNat ((([4, 0] : List Nat).flatMap (natToBits 8)).take 8))) [] []).1 = []) →
        decompress [4, 0] [(97, [false])] = some
          (decodeLoop ([(97, [false])].map fun p => (p.2, p.1))
            (removePadding ((([4, 0] : List Nat).flatMap (natToBits 8)).drop 8)
              (bitsToNat ((([4, 0] : List Nat).flatMap (natToBits 8)).take 8))) [] []).2)) :=
  ⟨by decide, claim_C4_error_iff_leftover [4, 0] [(97, [false])] (by decide)⟩

/-- Claim C5: compressing the empty sequence returns empty output and an
empty code table with no padding byte emitted, and decompressing an
empty packed sequence returns the empty sequence for every code table,
in particular the empty one. -/
theorem claim_C5_empty_input :
    compress [] = some ([], []) ∧
      ∀ codes : List (Nat × List Bool), decompress [] codes = some [] := by
  refine ⟨rfl, fun codes => ?_⟩
  unfold decompress
  rw [if_pos rfl]

/-- Claim C6: compressing four bytes 97 yields the single-symbol code
table mapping 97 to the one-bit code 0, and decompressing the packed
result (padding byte 4, one data byte) with that table reconstructs the
four payload bits and returns the four bytes 97. -/
theorem claim_C6_single_symbol :
    compress [97, 97, 97, 97] = some ([4, 0], [(97, [false])]) ∧
      decompress [4, 0] [(97, [false])] = some [97, 97, 97, 97] := by
  refine ⟨by decide, by decide⟩

/-- Claim C7: the code table produced from any non-empty frequency table
is prefix-free: whenever the code of one entry is a prefix of the code
of another entry the two codes are equal, so no code is a proper prefix
of another code. -/
theorem claim_C7_prefix_free (frequency : List (Nat × Nat)) (hne : frequency ≠ []) :
    ∀ p ∈ huffmanCodes frequency, ∀ q ∈ huffmanCodes frequency,
      p.2 <+: q.2 → p.2 = q.2 := by
  intro p hp q hq hpq
  have hpw := huffmanCodes_pairwise frequency
  by_cases hpq2 : p = q
  · rw [hpq2]
  · have hsym : Symmetric (fun a b : Nat × List Bool => ¬ a.2 <+: b.2 ∧ ¬ b.2 <+: a.2) :=
      fun a b h => ⟨h.2, h.1⟩
    have hR := (List.Pairwise.forall hsym hpw) hp hq hpq2
    exact absurd hpq hR.1

theorem claim_C7_prefix_free_witness :
    ([(97, 2), (98, 1)] : List (Nat × Nat)) ≠ [] ∧
      ∀ p ∈ huffmanCodes [(97, 2), (98, 1)], ∀ q ∈ huffmanCodes [(97, 2), (98, 1)],
        p.2 <+: q.2 → p.2 = q.2 :=
  ⟨by decide, claim_C7_prefix_free [(97, 2), (98, 1)] (by decide)⟩

/-- Claim C9: for every non-empty input whose total encoded bit-length
(the length of the concatenation of the codes of its bytes under the
derived code table) is not a multiple of 8, decompressing the compressed
output with the returned code table yields exactly the input. -/
theorem claim_C9_roundtrip_off_boundary (data : List Nat) (hne : data ≠ [])
    {out : List Nat} {codes : List (Nat × List Bool)} {enc : List Bool}
    (hc : compress data = some (out, codes))
    (henc : getEncodedData codes data = some enc)
    (hmod : enc.length % 8 ≠ 0) :
    decompress out codes = some data :=
  decompress_compress data hne hc henc hmod

theorem claim_C9_roundtrip_witness :
    ([97, 97, 98] : List Nat) ≠ [] ∧
      compress [97, 97, 98] = some ([5, 192], [(98, [false]), (97, [true])]) ∧
      getEncodedData [(98, [false]), (97, [true])] [97, 97, 98] =
        some [true, true, false] ∧
      ([true, true, false] : List Bool).length % 8 ≠ 0 ∧
      decompress [5, 192] [(98, [false]), (97, [true])] = some [97, 97, 98] :=
  ⟨by decide, by decide, by decide, by decide,
    claim_C9_roundtrip_off_boundary [97, 97, 98] (by decide)
      (show compress [97, 97, 98] = some ([5, 192], [(98, [false]), (97, [true])]) by decide)
      (show getEncodedData [(98, [false]), (97, [true])] [97, 97, 98] =
        some [true, true, false] by decide)
      (by decide)⟩

/-- Claim C10: for every non-empty input the leading metadata byte of
the packed output lies in [1, 8] (never 0), equals 8 exactly when the
concatenated code bit-string length is a multiple of 8, and the total
output length is exactly 1 + ceil(bit-string length / 8). -/
theorem claim_C10_metadata_byte (data : List Nat) (hne : data ≠ [])
    {out : List Nat} {codes : List (Nat × List Bool)}
    (hc : compress data = some (out, codes)) :
    ∃ enc body, getEncodedData codes data = some enc ∧
      out = (8 - enc.length % 8) :: body ∧
      1 ≤ 8 - enc.length % 8 ∧ 8 - enc.length % 8 ≤ 8 ∧
      (8 - enc.length % 8 = 8 ↔ enc.length % 8 = 0) ∧
      out.length = 1 + (enc.length + 7) / 8 := by
  obtain ⟨enc, henc, hc2⟩ := compress_eq data hne
  rw [hc] at hc2
  simp only [Option.some.injEq, Prod.mk.injEq] at hc2
  obtain ⟨hout, hcodes⟩ := hc2
  subst hcodes
  refine ⟨enc, _, henc, hout, by omega, by omega, by omega, ?_⟩
  rw [hout, List.length_cons, bitsToBytes_length]
  simp only [List.length_append, List.length_replicate]
  omega

theorem claim_C10_metadata_byte_witness :
    ([97, 97, 97, 97] : List Nat) ≠ [] ∧
      compress [97, 97, 97, 97] = some ([4, 0], [(97, [false])]) ∧
      ∃ enc body, getEncodedData [(97, [false])] [97, 97, 97, 97] = some enc ∧
        ([4, 0] : List Nat) = (8 - enc.length % 8) :: body ∧
        1 ≤ 8 - enc.length % 8 ∧ 8 - enc.length % 8 ≤ 8 ∧
        (8 - enc.length % 8 = 8 ↔ enc.length % 8 = 0) ∧
        ([4, 0] : List Nat).length = 1 + (enc.length + 7) / 8 :=
  ⟨by decide, by decide,
    claim_C10_metadata_byte [97, 97, 97, 97] (by decide) (by decide)⟩

/-- Claim C8: on the skewed input of 1000 bytes 97, 500 bytes 98, 250
bytes 99 and 125 bytes 100 (1875 bytes), the packed output of compress
(metadata byte plus packed body, excluding the code table) is strictly
smaller than 1875 bytes: the bit-string has 3125 bits, so the output has
1 + 391 = 392 bytes. -/
theorem claim_C8_compression_ratio :
    ∃ out codes, compress skewedInput = some (out, codes) ∧ out.length < 1875 := by
  have hne : skewedInput ≠ [] := by
    unfold skewedInput
    intro h
    have h2 := congrArg List.length h
    simp only [List.length_append, List.length_replicate, List.length_nil] at h2
    omega
  obtain ⟨enc, henc, hc⟩ := compress_eq skewedInput hne
  have hcodes : huffmanCodes (buildFrequencyDict skewedInput) =
      [(100, [false, false, false]), (99, [false, false, true]), (98, [false, true]),
        (97, [true])] := by
    rw [buildFrequencyDict_skewedInput]
    decide
  rw [hcodes] at henc hc
  obtain ⟨e1, he1, hl1⟩ := getEncodedData_replicate
    [(100, [false, false, false]), (99, [false, false, true]), (98, [false, true]),
      (97, [true])] 97 [true] (by decide) 1000
  obtain ⟨e2, he2, hl2⟩ := getEncodedData_replicate
    [(100, [false, false, false]), (99, [false, false, true]), (98, [false, true]),
      (97, [true])] 98 [false, true] (by decide) 500
  obtain ⟨e3, he3, hl3⟩ := getEncodedData_replicate
    [(100, [false, false, false]), (99, [false, false, true]), (98, [false, true]),
      (97, [true])] 99 [false, false, true] (by decide) 250
  obtain ⟨e4, he4, hl4⟩ := getEncodedData_replicate
    [(100, [false, false, false]), (99, [false, false, true]), (98, [false, true]),
      (97, [true])] 100 [false, false, false] (by decide) 125
  have hA := getEncodedData_append he1 he2
  have hB := getEncodedData_append hA he3
  have hC := getEncodedData_append hB he4
  unfold skewedInput at henc
  rw [hC] at henc
  simp only [Option.some.injEq] at henc
  have hEl : enc.length = 3125 := by
    rw [← henc]
    simp only [List.length_append, hl1, hl2, hl3, hl4, List.length_cons,
      List.length_singleton, List.length_nil]
  refine ⟨_, _, hc, ?_⟩
  rw [List.length_cons, bitsToBytes_length]
  simp only [List.length_append, List.length_replicate, hEl]
  omega
